import Mathlib

/-!
Verification development for the playback-coordination core of the
`music-player` repository.

The embedding below translates, from the Rust source:
  * `src/audio/queue.rs`   — the `Queue` playlist structure and its operations;
  * `src/app.rs`           — the Coordinator (`AppModel`) message handlers
                             (`update`), including the MPRIS event drain in
                             `Message::Tick`;
  * `src/audio/mpris.rs`   — the bridge-side interpretation of outbound
                             `MprisCommand`s.

Engine calls (`load_path`, `play`, `pause`, `stop`, `seek`) and engine
queries (`position`, `duration`, `metadata`, `take_eos`) are performed on a
GStreamer pipeline in the source.  They are modelled by an `EngineResp`
record holding, for one handler invocation, the success of each fallible
call and the values returned by the queries.  Within one handler the source
may query `position()` several times; the model returns the same snapshot
value for each such query, which is the only determinization applied.
Durations are in milliseconds (`Nat`).  The MPRIS command sender
(`mpris_tx`) is installed unconditionally at `init` in the source, so the
model treats it as always present and records every `try_send` as a push.
The seek fraction (`f32` in the source) is modelled by the exact rational
value of that `f32` (`roundF32` canonicalizes the payload and is the
identity on genuine `f32` values); the `u64 → f32` conversion of the
duration, the `f32` multiplication, and the saturating `f32 → u64` cast in
the `SeekTo` handler are modelled exactly as IEEE-754 binary32
round-to-nearest-even (`rne`, `qexp`, `f32ulp`, `roundF32`); NaN and
overflow to infinity do not arise for the inputs used (`u64` durations and
clamped fractions).
-/

/-- Track identifiers: opaque path-like handles (`PathBuf` in the source). -/
abbrev Track := String

/-- `src/audio/queue.rs`: a simple queue/playlist manager with a cursor. -/
structure Queue where
  tracks : List Track
  index : Nat
deriving Repr, DecidableEq

namespace Queue

/-- `Queue::new`. -/
def new : Queue := ⟨[], 0⟩

/-- `Queue::push`: appends; no effect on the cursor. -/
def push (q : Queue) (path : Track) : Queue :=
  { q with tracks := q.tracks ++ [path] }

/-- `Queue::pop`: `Vec::pop` removes and returns the last element; the
cursor is not adjusted. -/
def pop (q : Queue) : Queue × Option Track :=
  match q.tracks.getLast? with
  | none => (q, none)
  | some t => ({ q with tracks := q.tracks.dropLast }, some t)

/-- `Queue::next`: empty queue returns `none`; otherwise the cursor
advances by one, wrapping to `0` past the end, and the newly selected
element is returned. -/
def next (q : Queue) : Queue × Option Track :=
  if q.tracks.isEmpty then (q, none)
  else
    let i := if q.index + 1 < q.tracks.length then q.index + 1 else 0
    ({ q with index := i }, q.tracks[i]?)

/-- `Queue::prev`: empty queue returns `none`; otherwise the cursor
retreats by one, wrapping to `len - 1` below zero, and the newly selected
element is returned. -/
def prev (q : Queue) : Queue × Option Track :=
  if q.tracks.isEmpty then (q, none)
  else
    let i := if 0 < q.index then q.index - 1 else q.tracks.length - 1
    ({ q with index := i }, q.tracks[i]?)

/-- `Queue::current`: the element at the cursor, if any. -/
def current (q : Queue) : Option Track := q.tracks[q.index]?

/-- `Queue::len`. -/
def len (q : Queue) : Nat := q.tracks.length

/-- `Queue::clear`: empties the sequence and resets the cursor. -/
def clear (_q : Queue) : Queue := ⟨[], 0⟩

/-- `Iterator::position` over the track list: index of the first
occurrence of `path`, if any. -/
def positionOf (path : Track) : List Track → Option Nat
  | [] => none
  | t :: ts => if t == path then some 0 else (positionOf path ts).map (· + 1)

/-- `Queue::select_or_push`: if the path already occurs, the cursor moves
to its first occurrence; otherwise the path is appended and selected. -/
def select_or_push (q : Queue) (path : Track) : Queue :=
  match positionOf path q.tracks with
  | some pos => { q with index := pos }
  | none =>
    let tracks := q.tracks ++ [path]
    if tracks.isEmpty then { tracks := tracks, index := 0 }
    else { tracks := tracks, index := tracks.length - 1 }

/-- The cursor transition performed by `Queue::next` on a non-empty queue. -/
def nextIdx (len i : Nat) : Nat := if i + 1 < len then i + 1 else 0

/-- The cursor transition performed by `Queue::prev` on a non-empty queue. -/
def prevIdx (len i : Nat) : Nat := if 0 < i then i - 1 else len - 1

/-- `Queue::next`, keeping only the mutated queue (for iteration). -/
def stepNext (q : Queue) : Queue := (q.next).1

/-- `Queue::prev`, keeping only the mutated queue (for iteration). -/
def stepPrev (q : Queue) : Queue := (q.prev).1

end Queue

/-- The queue operations considered by claim C4, without `pop`. -/
inductive QueueOp where
  | push (t : Track)
  | selectOrPush (t : Track)
  | next
  | prev
  | clear
deriving Repr, DecidableEq

/-- Apply one queue operation. -/
def QueueOp.apply (q : Queue) : QueueOp → Queue
  | QueueOp.push t => q.push t
  | QueueOp.selectOrPush t => q.select_or_push t
  | QueueOp.next => (q.next).1
  | QueueOp.prev => (q.prev).1
  | QueueOp.clear => q.clear

/-- Run a sequence of queue operations from the empty queue. -/
def runQueue (ops : List QueueOp) : Queue := ops.foldl QueueOp.apply Queue.new

/-- Cursor-validity invariant of the queue. -/
def QueueInv (q : Queue) : Prop :=
  q.index < q.tracks.length ∨ (q.tracks = [] ∧ q.index = 0)

/-- `src/audio/backend.rs`: `TrackMetadata` — optional title/album/artist
discovered asynchronously from tags. -/
structure TrackMetadata where
  title : Option String
  album : Option String
  artist : Option String
deriving Repr, DecidableEq

/-- `src/audio/mpris.rs`: outbound commands to the MPRIS bridge. -/
inductive MprisCommand where
  | SetPlayback (playing : Bool) (position : Option Nat)
  | SetMetadata (title artist album : Option String) (length : Option Nat)
deriving Repr, DecidableEq

/-- `src/audio/mpris.rs`: inbound events from the MPRIS bridge. -/
inductive MprisEvent where
  | Play
  | Pause
  | Next
  | Previous
  | SeekTo (ms : Nat)
deriving Repr, DecidableEq

/-- An engine command issued by a handler (a call on the `MediaPlayer`). -/
inductive EngineCall where
  | load (t : Track)
  | play
  | pause
  | stop
  | seek (ms : Nat)
deriving Repr, DecidableEq

/-- Responses of the audio engine during one handler invocation: success of
each fallible transport call, and the snapshot answered by the queries
`position()`, `duration()`, `metadata()` and `take_eos()`. -/
structure EngineResp where
  loadOk : Bool
  playOk : Bool
  pauseOk : Bool
  stopOk : Bool
  seekOk : Bool
  pos : Option Nat
  dur : Option Nat
  eos : Bool
  md : TrackMetadata
deriving Repr, DecidableEq

/-- `src/app.rs`: the Coordinator-relevant fields of `AppModel`.
`audioPresent` models `audio: Option<MediaPlayer>` being `Some`. -/
structure AppModel where
  audioPresent : Bool
  queue : Queue
  position_ms : Nat
  duration_ms : Nat
  is_playing : Bool
  mpris_needs_metadata_flush : Bool
deriving Repr, DecidableEq

/-- `src/app.rs`: the messages handled by `AppModel::update` that touch the
coordination state.  `Tick` carries the inbound MPRIS events drained during
that tick, in arrival order. -/
inductive Message where
  | Play
  | Pause
  | Stop
  | LoadPath (path : Track)
  | Enqueue (path : Track)
  | Next
  | Prev
  | Tick (events : List MprisEvent)
  | SeekTo (frac : ℚ)
deriving DecidableEq

/-- Result of one handler: the new state, the engine calls issued (in
order), and the MPRIS commands pushed (in order). -/
structure StepOut where
  state : AppModel
  calls : List EngineCall
  pushes : List MprisCommand
deriving Repr, DecidableEq

/-- The metadata-flush block duplicated verbatim in the `Play` and
`LoadPath` handlers (`src/app.rs` lines 334-354 and 414-434): if the
pending-publish flag is set and at least one metadata field or the duration
is known, push `SetMetadata` and clear the flag. -/
def metadataFlush (e : EngineResp) (s : AppModel) (pushes : List MprisCommand) :
    AppModel × List MprisCommand :=
  if s.mpris_needs_metadata_flush then
    let haveAny := e.md.title.isSome || e.md.artist.isSome || e.md.album.isSome
    if haveAny || e.dur.isSome then
      ({ s with mpris_needs_metadata_flush := false },
        pushes ++ [MprisCommand.SetMetadata e.md.title e.md.artist e.md.album e.dur])
    else (s, pushes)
  else (s, pushes)

/-- `Message::Play` (`src/app.rs` 309-356).  The pending-publish flag is set
unconditionally first; if the engine is present, the current queue track (if
any) is loaded (a failure is only logged), then `play()` is issued; on
success `is_playing` is set and `SetPlayback` pushed; finally the
metadata-flush block runs. -/
def handlePlay (e : EngineResp) (s : AppModel) : StepOut :=
  let s := { s with mpris_needs_metadata_flush := true }
  if s.audioPresent then
    let calls :=
      (match s.queue.current with
        | some t => [EngineCall.load t]
        | none => []) ++ [EngineCall.play]
    let (s, pushes) :=
      if e.playOk then
        ({ s with is_playing := true }, [MprisCommand.SetPlayback true e.pos])
      else (s, [])
    let (s, pushes) := metadataFlush e s pushes
    ⟨s, calls, pushes⟩
  else ⟨s, [], []⟩

/-- `Message::Pause` (`src/app.rs` 358-372). -/
def handlePause (e : EngineResp) (s : AppModel) : StepOut :=
  if s.audioPresent then
    if e.pauseOk then
      ⟨{ s with is_playing := false }, [EngineCall.pause],
        [MprisCommand.SetPlayback false e.pos]⟩
    else ⟨s, [EngineCall.pause], []⟩
  else ⟨s, [], []⟩

/-- `Message::Stop` (`src/app.rs` 374-388).  On success `is_playing` is
cleared and `SetPlayback { playing: false, position: 0 }` is pushed; the
Coordinator's own `position_ms` is not modified. -/
def handleStop (e : EngineResp) (s : AppModel) : StepOut :=
  if s.audioPresent then
    if e.stopOk then
      ⟨{ s with is_playing := false }, [EngineCall.stop],
        [MprisCommand.SetPlayback false (some 0)]⟩
    else ⟨s, [EngineCall.stop], []⟩
  else ⟨s, [], []⟩

/-- `Message::LoadPath` (`src/app.rs` 390-436): `select_or_push` into the
queue, then `load`; on load success `play`; on play success set the flag,
`is_playing`, and push `SetPlayback`; finally the metadata-flush block. -/
def handleLoadPath (e : EngineResp) (path : Track) (s : AppModel) : StepOut :=
  if s.audioPresent then
    let s := { s with queue := s.queue.select_or_push path }
    let (s, calls, pushes) :=
      if e.loadOk then
        if e.playOk then
          ({ s with mpris_needs_metadata_flush := true, is_playing := true },
            [EngineCall.load path, EngineCall.play],
            [MprisCommand.SetPlayback true e.pos])
        else (s, [EngineCall.load path, EngineCall.play], [])
      else (s, [EngineCall.load path], [])
    let (s, pushes) := metadataFlush e s pushes
    ⟨s, calls, pushes⟩
  else ⟨s, [], []⟩

/-- `Message::Enqueue` (`src/app.rs` 442-444). -/
def handleEnqueue (path : Track) (s : AppModel) : StepOut :=
  ⟨{ s with queue := s.queue.push path }, [], []⟩

/-- `Message::Next` (`src/app.rs` 446-466): `self.queue.next()` runs before
the engine-presence check, so the cursor moves regardless; if an element
was returned and the engine is present, `load` then `play` it, and on full
success set `is_playing`, the flag, and push `SetPlayback`. -/
def handleNext (e : EngineResp) (s : AppModel) : StepOut :=
  let r := s.queue.next
  let s := { s with queue := r.1 }
  match r.2 with
  | some track =>
    if s.audioPresent then
      if e.loadOk then
        if e.playOk then
          ⟨{ s with is_playing := true, mpris_needs_metadata_flush := true },
            [EngineCall.load track, EngineCall.play],
            [MprisCommand.SetPlayback true e.pos]⟩
        else ⟨s, [EngineCall.load track, EngineCall.play], []⟩
      else ⟨s, [EngineCall.load track], []⟩
    else ⟨s, [], []⟩
  | none => ⟨s, [], []⟩

/-- `Message::Prev` (`src/app.rs` 468-488): mirror image of `Next`. -/
def handlePrev (e : EngineResp) (s : AppModel) : StepOut :=
  let r := s.queue.prev
  let s := { s with queue := r.1 }
  match r.2 with
  | some track =>
    if s.audioPresent then
      if e.loadOk then
        if e.playOk then
          ⟨{ s with is_playing := true, mpris_needs_metadata_flush := true },
            [EngineCall.load track, EngineCall.play],
            [MprisCommand.SetPlayback true e.pos]⟩
        else ⟨s, [EngineCall.load track, EngineCall.play], []⟩
      else ⟨s, [EngineCall.load track], []⟩
    else ⟨s, [], []⟩
  | none => ⟨s, [], []⟩

/-- The end-of-stream auto-advance block of `Message::Tick`
(`src/app.rs` 499-518). -/
def eosAdvance (e : EngineResp) (s : AppModel) : StepOut :=
  if e.eos then
    let r := s.queue.next
    let s := { s with queue := r.1 }
    match r.2 with
    | some track =>
      if e.loadOk then
        if e.playOk then
          ⟨{ s with is_playing := true, mpris_needs_metadata_flush := true },
            [EngineCall.load track, EngineCall.play],
            [MprisCommand.SetPlayback true e.pos]⟩
        else ⟨s, [EngineCall.load track, EngineCall.play], []⟩
      else ⟨s, [EngineCall.load track], []⟩
    | none => ⟨s, [], []⟩
  else ⟨s, [], []⟩

/-- One iteration of the MPRIS event drain loop inside `Message::Tick`
(`src/app.rs` 529-564).  Engine-call results are discarded (`let _ = ...`),
no `SetPlayback`/`SetMetadata` is pushed, and the pending-publish flag is
never touched; the accumulator records the engine calls issued. -/
def drainOne (acc : AppModel × List EngineCall) (evt : MprisEvent) :
    AppModel × List EngineCall :=
  let s := acc.1
  let cs := acc.2
  match evt with
  | MprisEvent.Play =>
    let cs := cs ++
      (match s.queue.current with
        | some t => [EngineCall.load t]
        | none => []) ++ [EngineCall.play]
    ({ s with is_playing := true }, cs)
  | MprisEvent.Pause =>
    ({ s with is_playing := false }, cs ++ [EngineCall.pause])
  | MprisEvent.Next =>
    let r := s.queue.next
    let s := { s with queue := r.1 }
    match r.2 with
    | some t => ({ s with is_playing := true }, cs ++ [EngineCall.load t, EngineCall.play])
    | none => (s, cs)
  | MprisEvent.Previous =>
    let r := s.queue.prev
    let s := { s with queue := r.1 }
    match r.2 with
    | some t => ({ s with is_playing := true }, cs ++ [EngineCall.load t, EngineCall.play])
    | none => (s, cs)
  | MprisEvent.SeekTo ms =>
    ({ s with position_ms := ms }, cs ++ [EngineCall.seek ms])

/-- `Message::Tick` (`src/app.rs` 490-566): refresh `duration_ms` and
`position_ms` from the engine when known, run the end-of-stream
auto-advance, push the periodic `SetPlayback`, then drain the inbound MPRIS
events in order.  The handler never pushes `SetMetadata`. -/
def handleTick (e : EngineResp) (events : List MprisEvent) (s : AppModel) : StepOut :=
  if s.audioPresent then
    let s1 :=
      match e.dur with
      | some d => { s with duration_ms := d }
      | none => s
    let s2 :=
      match e.pos with
      | some p => { s1 with position_ms := p }
      | none => s1
    let a := eosAdvance e s2
    let dr := events.foldl drainOne (a.state, [])
    ⟨dr.1, a.calls ++ dr.2,
      a.pushes ++ [MprisCommand.SetPlayback a.state.is_playing e.pos]⟩
  else ⟨s, [], []⟩

/-- The `f32::clamp(0.0, 1.0)` applied to the seek fraction. -/
def clamp01 (x : ℚ) : ℚ := min 1 (max 0 x)

/-- Round a rational to the nearest integer, ties to even — the rounding
step of IEEE-754 round-to-nearest-even. -/
def rne (y : ℚ) : ℤ :=
  let f := y.floor
  let r := y - f
  if r < 1 / 2 then f
  else if 1 / 2 < r then f + 1
  else if f % 2 = 0 then f else f + 1

/-- The binade exponent of a positive rational: the unique `e` with
`2 ^ e ≤ x < 2 ^ (e + 1)`.  For `x ≥ 1` this is the base-2 logarithm of
`⌊x⌋`; for `0 < x < 1` it is `-k` for the least `k` with
`x.num * 2 ^ k ≥ x.den`, computed with the ceiling logarithm. -/
def qexp (x : ℚ) : ℤ :=
  if 1 ≤ x then (Nat.log2 x.floor.toNat : ℤ)
  else -(Nat.clog 2 ((x.den + x.num.toNat - 1) / x.num.toNat) : ℤ)

/-- The IEEE-754 binary32 quantum (unit in the last place) at a positive
magnitude: `2 ^ (e - 23)` in the binade of a normal number (24-bit
significand), and the fixed `2 ^ (-149)` below the normal range
(`x < 2 ^ (-126)`, the subnormals). -/
def f32ulp (x : ℚ) : ℚ :=
  if x < (2 : ℚ) ^ (-126 : ℤ) then (2 : ℚ) ^ (-149 : ℤ)
  else (2 : ℚ) ^ (qexp x - 23)

/-- IEEE-754 binary32 round-to-nearest-even of a non-negative rational:
round to the nearest multiple of the quantum of its binade, ties to even.
Finite range only — the inputs used here (`u64` durations and clamped
fractions) never overflow to infinity, and NaN does not arise. -/
def roundF32Pos (x : ℚ) : ℚ :=
  if x ≤ 0 then 0 else (rne (x / f32ulp x) : ℚ) * f32ulp x

/-- IEEE-754 binary32 round-to-nearest-even, extended by sign symmetry. -/
def roundF32 (x : ℚ) : ℚ :=
  if x < 0 then -(roundF32Pos (-x)) else roundF32Pos x

/-- `Message::SeekTo` (`src/app.rs` 568-584): only when the duration is
known (positive).  The payload is an `f32` fraction (modelled by the exact
rational value of that `f32`; `roundF32` at entry is the identity on
genuine `f32` values), clamped to `[0, 1]`; the target is
`(self.duration_ms as f32 * frac) as u64`: the `u64 → f32` conversion of
the duration (round to nearest even), the `f32` product (round to nearest
even of the exact product), and the saturating truncation toward zero back
to `u64`.  The seek result is ignored and `position_ms` is updated
optimistically. -/
def handleSeekTo (frac : ℚ) (s : AppModel) : StepOut :=
  if s.audioPresent then
    if 0 < s.duration_ms then
      let f := clamp01 (roundF32 frac)
      let target :=
        min (2 ^ 64 - 1)
          ((roundF32 (roundF32 (s.duration_ms : ℚ) * f)).floor.toNat)
      ⟨{ s with position_ms := target },
        [EngineCall.seek target],
        [MprisCommand.SetPlayback s.is_playing (some target)]⟩
    else ⟨s, [], []⟩
  else ⟨s, [], []⟩

/-- `AppModel::update` (`src/app.rs` 276-587), restricted to the messages
that touch the coordination state. -/
def update (e : EngineResp) (s : AppModel) : Message → StepOut
  | Message.Play => handlePlay e s
  | Message.Pause => handlePause e s
  | Message.Stop => handleStop e s
  | Message.LoadPath path => handleLoadPath e path s
  | Message.Enqueue path => handleEnqueue path s
  | Message.Next => handleNext e s
  | Message.Prev => handlePrev e s
  | Message.Tick events => handleTick e events s
  | Message.SeekTo frac => handleSeekTo frac s

/-- The MPRIS playback status published over D-Bus (`mpris_server`). -/
inductive PlaybackStatus where
  | Playing
  | Paused
  | Stopped
deriving Repr, DecidableEq

/-- Observable effects of one outbound command at the bridge. -/
inductive BridgeEffect where
  | status (st : PlaybackStatus)
  | seeked (ms : Nat)
  | metadata (title artist album : Option String) (length : Option Nat)
deriving Repr, DecidableEq

/-- The command loop of `src/audio/mpris.rs` (lines 95-122): `SetPlayback`
publishes `Playing` when the flag is true and `Paused` otherwise, then
emits `seeked` when a position is attached; `SetMetadata` publishes the
metadata record. -/
def bridgeEffects : MprisCommand → List BridgeEffect
  | MprisCommand.SetPlayback playing position =>
    [BridgeEffect.status (if playing then PlaybackStatus.Playing else PlaybackStatus.Paused)] ++
      (match position with
        | some p => [BridgeEffect.seeked p]
        | none => [])
  | MprisCommand.SetMetadata t a al l => [BridgeEffect.metadata t a al l]

/-- The playback statuses published for a list of pushed commands. -/
def statusesOf (cmds : List MprisCommand) : List PlaybackStatus :=
  (cmds.flatMap bridgeEffects).filterMap
    (fun eff =>
      match eff with
      | BridgeEffect.status st => some st
      | _ => none)

/-- The duration the Coordinator holds after the refresh at the start of a
`Tick` (the engine answer when known, the previous value otherwise). -/
def tickDur (e : EngineResp) (s : AppModel) : Nat :=
  match e.dur with
  | some d => d
  | none => s.duration_ms

/-- The position the Coordinator holds after the refresh at the start of a
`Tick`. -/
def tickPos (e : EngineResp) (s : AppModel) : Nat :=
  match e.pos with
  | some p => p
  | none => s.position_ms

/-- Side condition on one step of claim C7's amended invariant: the message
belongs to the claim's alphabet; on a local `SeekTo` the known duration is
below `2 ^ 24` ms (for larger durations the `u64 → f32` conversion can
round the duration upward and the computed target can exceed it); and on a
`Tick` the engine-reported refresh and every externally-requested seek
target stay within the refreshed duration whenever that duration is known
(positive). -/
def stepOKb (s : AppModel) : Message × EngineResp → Bool
  | (Message.Play, _) => true
  | (Message.Pause, _) => true
  | (Message.SeekTo _, _) => decide (s.duration_ms < 2 ^ 24)
  | (Message.Tick evts, e) =>
    decide (0 < tickDur e s → tickPos e s ≤ tickDur e s) &&
      evts.all (fun evt =>
        match evt with
        | MprisEvent.SeekTo t => decide (0 < tickDur e s → t ≤ tickDur e s)
        | _ => true)
  | _ => false

/-- `stepOKb` along a whole input sequence. -/
def runOKb (s : AppModel) : List (Message × EngineResp) → Bool
  | [] => true
  | me :: rest => stepOKb s me && runOKb (update me.2 s me.1).state rest

/-- Run a sequence of messages, each with its engine responses. -/
def run (s : AppModel) (inputs : List (Message × EngineResp)) : AppModel :=
  inputs.foldl (fun s me => (update me.2 s me.1).state) s

/-- Claim C7's invariant: the position does not exceed the duration
whenever the duration is known (positive). -/
def PosInv (s : AppModel) : Prop :=
  0 < s.duration_ms → s.position_ms ≤ s.duration_ms

instance (s : AppModel) : Decidable (PosInv s) := by
  unfold PosInv
  infer_instance

/-- Engine responses where every call succeeds and every query is unknown. -/
def engAllOk : EngineResp :=
  ⟨true, true, true, true, true, none, none, false, ⟨none, none, none⟩⟩

/-- Engine responses where every call fails and every query is unknown. -/
def engAllFail : EngineResp :=
  ⟨false, false, false, false, false, none, none, false, ⟨none, none, none⟩⟩

/-- Engine responses where every call succeeds, a title tag and a duration
of 1000 ms are known, and the position reads 10 ms. -/
def engTags : EngineResp :=
  ⟨true, true, true, true, true, some 10, some 1000, false, ⟨some "T", none, some "A"⟩⟩

/-! ## Queue lemmas -/

lemma Queue.eq_of_parts {a b : Queue} (h1 : a.tracks = b.tracks)
    (h2 : a.index = b.index) : a = b := by
  cases a; cases b; simp_all

lemma Queue.positionOf_lt_length {path : Track} :
    ∀ {l : List Track} {i : Nat}, Queue.positionOf path l = some i → i < l.length := by
  intro l
  induction l with
  | nil => intro i h; simp [Queue.positionOf] at h
  | cons t ts ih =>
    intro i h
    simp only [Queue.positionOf] at h
    split at h
    · simp only [Option.some.injEq] at h
      simp [← h]
    · cases hpo : Queue.positionOf path ts with
      | none => rw [hpo] at h; simp at h
      | some j =>
        rw [hpo] at h
        simp only [Option.map_some', Option.some.injEq] at h
        have := ih hpo
        simp [← h]
        omega

lemma QueueInv.new : QueueInv Queue.new := Or.inr ⟨rfl, rfl⟩

lemma QueueInv.apply {q : Queue} (h : QueueInv q) (op : QueueOp) :
    QueueInv (QueueOp.apply q op) := by
  rcases op with t | t | _ | _ | _
  · left
    rcases h with h | ⟨h1, h2⟩
    · simp [QueueOp.apply, Queue.push]; omega
    · simp [QueueOp.apply, Queue.push, h1, h2]
  · simp only [QueueOp.apply, Queue.select_or_push]
    cases hpo : Queue.positionOf t q.tracks with
    | some pos =>
      left
      simpa using Queue.positionOf_lt_length hpo
    | none =>
      left
      have hne : (q.tracks ++ [t]).isEmpty = false := by
        simp [List.isEmpty_iff]
      simp [hne]
  · rcases h with h | ⟨h1, h2⟩
    · have hne : q.tracks.isEmpty = false := by
        rcases htr : q.tracks with _ | _
        · rw [htr] at h; simp at h
        · simp
      left
      simp only [QueueOp.apply, Queue.next, hne, Bool.false_eq_true, if_false]
      split
      · omega
      · omega
    · right
      simp [QueueOp.apply, Queue.next, h1, h2]
  · rcases h with h | ⟨h1, h2⟩
    · have hne : q.tracks.isEmpty = false := by
        rcases htr : q.tracks with _ | _
        · rw [htr] at h; simp at h
        · simp
      left
      simp only [QueueOp.apply, Queue.prev, hne, Bool.false_eq_true, if_false]
      split
      · omega
      · omega
    · right
      simp [QueueOp.apply, Queue.prev, h1, h2]
  · right
    simp [QueueOp.apply, Queue.clear]

lemma runQueue_inv (ops : List QueueOp) : QueueInv (runQueue ops) := by
  suffices h : ∀ q, QueueInv q → QueueInv (ops.foldl QueueOp.apply q) from
    h Queue.new QueueInv.new
  induction ops with
  | nil => intro q h; exact h
  | cons op rest ih => intro q h; exact ih _ (QueueInv.apply h op)

/-- C4 fails as stated: from the empty queue, `push a`, `push b`, `next`
(cursor to 1), then `pop` leaves a non-empty queue whose cursor is out of
bounds, so `current()` returns none on a non-empty queue. -/
theorem C4_counterexample :
    (((((Queue.new.push "a").push "b").next).1.pop).1.tracks ≠ [] ∧
      ((((Queue.new.push "a").push "b").next).1.pop).1.current = none) := by decide

/-- C4 (amended): for every queue reachable from the empty queue by `push`,
`selectOrPush`, `next`, `previous` and `clear` — excluding `pop`, which can
strand the cursor out of bounds — the cursor is a valid index whenever the
sequence is non-empty (so `current()` returns an element), and `current()`
returns none when the sequence is empty. -/
theorem C4_amended_cursor_invariant (ops : List QueueOp) :
    ((runQueue ops).tracks ≠ [] →
      (runQueue ops).index < (runQueue ops).tracks.length ∧
        ((runQueue ops).current).isSome = true) ∧
    ((runQueue ops).tracks = [] → (runQueue ops).current = none) := by
  have h := runQueue_inv ops
  constructor
  · intro hne
    rcases h with h | ⟨h1, _⟩
    · refine ⟨h, ?_⟩
      rw [Queue.current, List.getElem?_eq_getElem h]
      rfl
    · exact absurd h1 hne
  · intro he
    simp [Queue.current, he]

/-- Witness for C4 (amended) at the concrete operation sequence
`[push a, selectOrPush b, next]`. -/
theorem C4_amended_cursor_invariant_witness :
    (runQueue [QueueOp.push "a", QueueOp.selectOrPush "b", QueueOp.next]).index <
      (runQueue [QueueOp.push "a", QueueOp.selectOrPush "b", QueueOp.next]).tracks.length :=
  ((C4_amended_cursor_invariant _).1 (by decide)).1

lemma Queue.stepNext_apply (q : Queue) : Queue.stepNext q = (q.next).1 := rfl

lemma Queue.stepPrev_apply (q : Queue) : Queue.stepPrev q = (q.prev).1 := rfl

lemma Queue.next_tracks (q : Queue) : (q.next).1.tracks = q.tracks := by
  simp only [Queue.next]
  split <;> rfl

lemma Queue.prev_tracks (q : Queue) : (q.prev).1.tracks = q.tracks := by
  simp only [Queue.prev]
  split <;> rfl

lemma Queue.next_index (q : Queue) (h : q.tracks ≠ []) :
    (q.next).1.index = Queue.nextIdx q.tracks.length q.index := by
  have hne : q.tracks.isEmpty = false := by simp [List.isEmpty_iff, h]
  simp [Queue.next, Queue.nextIdx, hne]

lemma Queue.prev_index (q : Queue) (h : q.tracks ≠ []) :
    (q.prev).1.index = Queue.prevIdx q.tracks.length q.index := by
  have hne : q.tracks.isEmpty = false := by simp [List.isEmpty_iff, h]
  simp [Queue.prev, Queue.prevIdx, hne]

lemma Queue.next_snd (q : Queue) (h : q.tracks ≠ []) :
    (q.next).2 = q.tracks[(q.next).1.index]? := by
  have hne : q.tracks.isEmpty = false := by simp [List.isEmpty_iff, h]
  simp [Queue.next, hne]

lemma Queue.prev_snd (q : Queue) (h : q.tracks ≠ []) :
    (q.prev).2 = q.tracks[(q.prev).1.index]? := by
  have hne : q.tracks.isEmpty = false := by simp [List.isEmpty_iff, h]
  simp [Queue.prev, hne]

lemma Queue.nextIdx_eq {len i : Nat} (h : i < len) :
    Queue.nextIdx len i = (i + 1) % len := by
  unfold Queue.nextIdx
  split
  · exact (Nat.mod_eq_of_lt (by omega)).symm
  · have h2 : i + 1 = len := by omega
    simp [h2]

lemma Queue.prevIdx_eq {len i : Nat} (h : i < len) :
    Queue.prevIdx len i = (i + (len - 1)) % len := by
  unfold Queue.prevIdx
  split
  · have h2 : i + (len - 1) = (i - 1) + len := by omega
    rw [h2, Nat.add_mod_right, Nat.mod_eq_of_lt (by omega)]
  · have h2 : i = 0 := by omega
    subst h2
    rw [Nat.zero_add, Nat.mod_eq_of_lt (by omega)]

lemma Queue.nextIdx_lt {len i : Nat} (h : i < len) :
    Queue.nextIdx len i < len := by
  unfold Queue.nextIdx
  split <;> omega

lemma Queue.prevIdx_lt {len i : Nat} (h : i < len) :
    Queue.prevIdx len i < len := by
  unfold Queue.prevIdx
  split <;> omega

lemma Queue.iterate_stepNext_tracks (q : Queue) (k : Nat) :
    (Queue.stepNext^[k] q).tracks = q.tracks := by
  induction k with
  | zero => rfl
  | succ n ih =>
    rw [Function.iterate_succ_apply', Queue.stepNext_apply, Queue.next_tracks, ih]

lemma Queue.iterate_stepPrev_tracks (q : Queue) (k : Nat) :
    (Queue.stepPrev^[k] q).tracks = q.tracks := by
  induction k with
  | zero => rfl
  | succ n ih =>
    rw [Function.iterate_succ_apply', Queue.stepPrev_apply, Queue.prev_tracks, ih]

lemma Queue.iterate_stepNext_index (q : Queue) (h : q.tracks ≠ [])
    (hi : q.index < q.tracks.length) (k : Nat) :
    (Queue.stepNext^[k] q).index = (q.index + k) % q.tracks.length := by
  induction k with
  | zero => simpa using (Nat.mod_eq_of_lt hi).symm
  | succ n ih =>
    have hlen : 0 < q.tracks.length := List.length_pos.mpr h
    have htr : (Queue.stepNext^[n] q).tracks = q.tracks :=
      Queue.iterate_stepNext_tracks q n
    have hne : (Queue.stepNext^[n] q).tracks ≠ [] := by rw [htr]; exact h
    have hlt : (Queue.stepNext^[n] q).index < q.tracks.length := by
      rw [ih]; exact Nat.mod_lt _ hlen
    rw [Function.iterate_succ_apply', Queue.stepNext_apply, Queue.next_index _ hne,
      htr, Queue.nextIdx_eq hlt, ih, Nat.mod_add_mod, Nat.add_assoc]

lemma Queue.iterate_stepPrev_index (q : Queue) (h : q.tracks ≠ [])
    (hi : q.index < q.tracks.length) (k : Nat) :
    (Queue.stepPrev^[k] q).index =
      (q.index + k * (q.tracks.length - 1)) % q.tracks.length := by
  induction k with
  | zero => simpa using (Nat.mod_eq_of_lt hi).symm
  | succ n ih =>
    have hlen : 0 < q.tracks.length := List.length_pos.mpr h
    have htr : (Queue.stepPrev^[n] q).tracks = q.tracks :=
      Queue.iterate_stepPrev_tracks q n
    have hne : (Queue.stepPrev^[n] q).tracks ≠ [] := by rw [htr]; exact h
    have hlt : (Queue.stepPrev^[n] q).index < q.tracks.length := by
      rw [ih]; exact Nat.mod_lt _ hlen
    rw [Function.iterate_succ_apply', Queue.stepPrev_apply, Queue.prev_index _ hne,
      htr, Queue.prevIdx_eq hlt, ih, Nat.mod_add_mod, Nat.succ_mul, ← Nat.add_assoc]

/-- Shift-by-`a` visiting: when `a` is coprime to `len`, each residue
`j < len` is hit by `(c + (k + 1) * a) % len` for exactly one `k < len`. -/
lemma visit_existsUnique (len a c : Nat) (hlen : 0 < len)
    (ha : Nat.Coprime len a) (j : Nat) (hj : j < len) :
    ∃! k, k < len ∧ (c + (k + 1) * a) % len = j := by
  have hinj : ∀ k1 k2, k1 < len → k2 < len →
      (c + (k1 + 1) * a) % len = (c + (k2 + 1) * a) % len → k1 = k2 := by
    intro k1 k2 h1 h2 hEq
    have h' : (k1 + 1) * a ≡ (k2 + 1) * a [MOD len] :=
      Nat.ModEq.add_left_cancel' c hEq
    have h'' : k1 + 1 ≡ k2 + 1 [MOD len] :=
      Nat.ModEq.cancel_right_of_coprime ha h'
    have h3 : k1 ≡ k2 [MOD len] := Nat.ModEq.add_right_cancel' 1 h''
    rwa [Nat.ModEq, Nat.mod_eq_of_lt h1, Nat.mod_eq_of_lt h2] at h3
  have hsurj := Finset.surj_on_of_inj_on_of_card_le
    (s := Finset.range len) (t := Finset.range len)
    (fun k _ => (c + (k + 1) * a) % len)
    (fun k _ => Finset.mem_range.mpr (Nat.mod_lt _ hlen))
    (fun k1 k2 hk1 hk2 hEq =>
      hinj k1 k2 (Finset.mem_range.mp hk1) (Finset.mem_range.mp hk2) hEq)
    le_rfl
  obtain ⟨k, hk, hkeq⟩ := hsurj j (Finset.mem_range.mpr hj)
  exact ⟨k, ⟨Finset.mem_range.mp hk, hkeq.symm⟩, fun y hy =>
    hinj y k hy.1 (Finset.mem_range.mp hk) (hy.2.trans hkeq)⟩

/-- C8: on an empty queue, `next()` and `prev()` return none and leave the
queue unchanged; on a non-empty queue with a valid cursor, `next()`
advances the cursor by one with wraparound (`len-1 → 0`) and returns the
newly selected element, `prev()` retreats by one with wraparound
(`0 → len-1`) and returns the newly selected element; `len` consecutive
`next()` calls visit every cursor position exactly once and return the
queue to its starting state, and likewise for `prev()` in reverse. -/
theorem C8_next_prev_cycle (q : Queue) :
    (q.tracks = [] → q.next = (q, none) ∧ q.prev = (q, none)) ∧
    (q.tracks ≠ [] → q.index < q.tracks.length →
      ((q.next).1.index = (q.index + 1) % q.tracks.length ∧
        (q.next).2 = (q.next).1.current ∧ ((q.next).2).isSome = true ∧
        (q.index = q.tracks.length - 1 → (q.next).1.index = 0)) ∧
      ((q.prev).1.index = (q.index + (q.tracks.length - 1)) % q.tracks.length ∧
        (q.prev).2 = (q.prev).1.current ∧ ((q.prev).2).isSome = true ∧
        (q.index = 0 → (q.prev).1.index = q.tracks.length - 1)) ∧
      (Queue.stepNext^[q.tracks.length] q = q ∧
        Queue.stepPrev^[q.tracks.length] q = q) ∧
      (∀ j < q.tracks.length,
        (∃! k, k < q.tracks.length ∧ (Queue.stepNext^[k + 1] q).index = j) ∧
        (∃! k, k < q.tracks.length ∧ (Queue.stepPrev^[k + 1] q).index = j))) := by
  constructor
  · intro h
    have hne : q.tracks.isEmpty = true := by simp [List.isEmpty_iff, h]
    constructor
    · simp [Queue.next, hne]
    · simp [Queue.prev, hne]
  · intro h hi
    have hlen : 0 < q.tracks.length := List.length_pos.mpr h
    refine ⟨?_, ?_, ⟨?_, ?_⟩, ?_⟩
    · have hidx := Queue.next_index q h
      have hlt : (q.next).1.index < q.tracks.length := by
        rw [hidx]; exact Queue.nextIdx_lt hi
      refine ⟨by rw [hidx, Queue.nextIdx_eq hi], ?_, ?_, ?_⟩
      · rw [Queue.next_snd q h, Queue.current, Queue.next_tracks]
      · rw [Queue.next_snd q h, List.getElem?_eq_getElem hlt]
        rfl
      · intro hlast
        rw [hidx, Queue.nextIdx_eq hi, hlast]
        have h2 : q.tracks.length - 1 + 1 = q.tracks.length := by omega
        rw [h2, Nat.mod_self]
    · have hidx := Queue.prev_index q h
      have hlt : (q.prev).1.index < q.tracks.length := by
        rw [hidx]; exact Queue.prevIdx_lt hi
      refine ⟨by rw [hidx, Queue.prevIdx_eq hi], ?_, ?_, ?_⟩
      · rw [Queue.prev_snd q h, Queue.current, Queue.prev_tracks]
      · rw [Queue.prev_snd q h, List.getElem?_eq_getElem hlt]
        rfl
      · intro h0
        rw [hidx, Queue.prevIdx_eq hi, h0, Nat.zero_add,
          Nat.mod_eq_of_lt (by omega)]
    · apply Queue.eq_of_parts
      · exact Queue.iterate_stepNext_tracks q _
      · rw [Queue.iterate_stepNext_index q h hi, Nat.add_mod_right,
          Nat.mod_eq_of_lt hi]
    · apply Queue.eq_of_parts
      · exact Queue.iterate_stepPrev_tracks q _
      · rw [Queue.iterate_stepPrev_index q h hi, Nat.add_mul_mod_self_left,
          Nat.mod_eq_of_lt hi]
    · intro j hj
      constructor
      · have base := visit_existsUnique q.tracks.length 1 q.index hlen
          (Nat.coprime_one_right _) j hj
        refine (existsUnique_congr ?_).mpr base
        intro k
        rw [Queue.iterate_stepNext_index q h hi, mul_one]
      · have hcop : Nat.Coprime q.tracks.length (q.tracks.length - 1) := by
          have h1 : q.tracks.length - 1 + 1 = q.tracks.length := by omega
          rw [← h1]
          exact (Nat.coprime_self_add_left).mpr (Nat.coprime_one_left _)
        have base := visit_existsUnique q.tracks.length (q.tracks.length - 1)
          q.index hlen hcop j hj
        refine (existsUnique_congr ?_).mpr base
        intro k
        rw [Queue.iterate_stepPrev_index q h hi]

/-- Witness for C8 on the concrete queue `[a, b, c]` with cursor 0: three
`next()` calls return the queue to its starting state. -/
theorem C8_next_prev_cycle_witness :
    Queue.stepNext^[3] (⟨["a", "b", "c"], 0⟩ : Queue) = ⟨["a", "b", "c"], 0⟩ :=
  (((C8_next_prev_cycle ⟨["a", "b", "c"], 0⟩).2 (by decide) (by decide)).2.2.1).1

/-! ## Coordinator claims -/

/-- C1 fails as stated: with a one-track queue and every engine call
failing, the `Play` handler still mutates the Coordinator state (the
pending-publish flag is set before any engine call) and still issues the
engine `play` after the failed `load`. -/
theorem C1_counterexample :
    (update engAllFail ⟨true, ⟨["a"], 0⟩, 0, 0, false, false⟩ Message.Play).state ≠
        ⟨true, ⟨["a"], 0⟩, 0, 0, false, false⟩ ∧
      EngineCall.play ∈
        (update engAllFail ⟨true, ⟨["a"], 0⟩, 0, 0, false, false⟩ Message.Play).calls ∧
      (update engAllFail ⟨true, ⟨["a"], 0⟩, 0, 0, false, false⟩
          Message.Play).state.mpris_needs_metadata_flush = true := by
  decide

/-- C1 (amended): a failed engine `pause` or `stop` leaves the Coordinator
state exactly unchanged, with no bridge push and no further engine call; a
failed engine `play` during the `Play` command leaves `is_playing`,
`position_ms`, `duration_ms` and the queue unchanged and pushes no
`SetPlayback`; but `Play` sets the pending-publish flag unconditionally
before any engine call, and a failed `load` during `Play` is still
followed by a `play` attempt. -/
theorem C1_amended_engine_failure (s : AppModel) (e : EngineResp)
    (ha : s.audioPresent = true) :
    (e.pauseOk = false →
      (update e s Message.Pause).state = s ∧
        (update e s Message.Pause).pushes = [] ∧
        (update e s Message.Pause).calls = [EngineCall.pause]) ∧
    (e.stopOk = false →
      (update e s Message.Stop).state = s ∧
        (update e s Message.Stop).pushes = [] ∧
        (update e s Message.Stop).calls = [EngineCall.stop]) ∧
    (e.playOk = false →
      (update e s Message.Play).state.is_playing = s.is_playing ∧
        (update e s Message.Play).state.position_ms = s.position_ms ∧
        (update e s Message.Play).state.duration_ms = s.duration_ms ∧
        (update e s Message.Play).state.queue = s.queue ∧
        (∀ b p, MprisCommand.SetPlayback b p ∉ (update e s Message.Play).pushes)) ∧
    (EngineCall.play ∈ (update e s Message.Play).calls) := by
  refine ⟨?_, ?_, ?_, ?_⟩
  · intro hp
    simp [update, handlePause, ha, hp]
  · intro hp
    simp [update, handleStop, ha, hp]
  · intro hp
    simp only [update, handlePlay, ha, if_true, hp, Bool.false_eq_true, if_false,
      metadataFlush]
    split <;> simp
  · simp only [update, handlePlay, ha, if_true]
    split <;> simp [metadataFlush]

/-- Witness for C1 (amended): a failed pause at a concrete state leaves
the state unchanged. -/
theorem C1_amended_engine_failure_witness :
    (update engAllFail ⟨true, Queue.new, 5, 7, true, false⟩ Message.Pause).state
      = ⟨true, Queue.new, 5, 7, true, false⟩ :=
  ((C1_amended_engine_failure ⟨true, Queue.new, 5, 7, true, false⟩ engAllFail
    (by decide)).1 (by decide)).1

/-- C5 (code bug): the `Play` handler issues an engine `load` of the
current queue track unconditionally — the code performs no "nothing
loaded" check, although its own comment (`src/app.rs:314`) says "If
there's a current queue track and nothing loaded, load it."  Evaluated at
the failing input "track a loaded and paused at 30 s, user presses Play":
the handler emits `load a` before `play`, restarting the track. -/
theorem C5_play_always_reloads :
    (update engAllOk ⟨true, ⟨["a"], 0⟩, 30000, 60000, false, false⟩
        Message.Play).calls = [EngineCall.load "a", EngineCall.play] := by decide

/-- C6 fails as stated: with no engine, `Play` still sets the
pending-publish flag and `Next`/`Prev` still move the queue cursor. -/
theorem C6_counterexample :
    (update engAllFail ⟨false, ⟨["a", "b"], 0⟩, 0, 0, false, false⟩
        Message.Play).state.mpris_needs_metadata_flush = true ∧
    (update engAllFail ⟨false, ⟨["a", "b"], 0⟩, 0, 0, false, false⟩
        Message.Next).state.queue.index = 1 ∧
    (update engAllFail ⟨false, ⟨["a", "b"], 1⟩, 0, 0, false, false⟩
        Message.Prev).state.queue.index = 0 := by decide

/-- C6 (amended): with no audio engine, `Pause`, `Stop`, `SeekTo`, `Load`
and `Tick` are exact no-ops (state unchanged, no engine call, no push);
but `Play` sets the pending-publish flag (everything else unchanged), and
`Next`/`Previous` move the queue cursor exactly as `queue.next()`/
`queue.prev()` do (everything else unchanged); no engine call or push is
ever issued. -/
theorem C6_amended_no_engine (s : AppModel) (e : EngineResp) (f : ℚ)
    (p : Track) (evts : List MprisEvent) (ha : s.audioPresent = false) :
    update e s Message.Pause = ⟨s, [], []⟩ ∧
    update e s Message.Stop = ⟨s, [], []⟩ ∧
    update e s (Message.SeekTo f) = ⟨s, [], []⟩ ∧
    update e s (Message.LoadPath p) = ⟨s, [], []⟩ ∧
    update e s (Message.Tick evts) = ⟨s, [], []⟩ ∧
    update e s Message.Play =
      ⟨{ s with mpris_needs_metadata_flush := true }, [], []⟩ ∧
    update e s Message.Next = ⟨{ s with queue := (s.queue.next).1 }, [], []⟩ ∧
    update e s Message.Prev = ⟨{ s with queue := (s.queue.prev).1 }, [], []⟩ := by
  refine ⟨?_, ?_, ?_, ?_, ?_, ?_, ?_, ?_⟩
  · simp [update, handlePause, ha]
  · simp [update, handleStop, ha]
  · simp [update, handleSeekTo, ha]
  · simp [update, handleLoadPath, ha]
  · simp [update, handleTick, ha]
  · simp [update, handlePlay, ha]
  · cases h2 : (s.queue.next).2 <;> simp [update, handleNext, ha, h2]
  · cases h2 : (s.queue.prev).2 <;> simp [update, handlePrev, ha, h2]

/-- Witness for C6 (amended): with no engine, `Pause` at a concrete state
is an exact no-op. -/
theorem C6_amended_no_engine_witness :
    update engAllOk ⟨false, Queue.new, 3, 4, true, true⟩ Message.Pause
      = ⟨⟨false, Queue.new, 3, 4, true, true⟩, [], []⟩ :=
  (C6_amended_no_engine ⟨false, Queue.new, 3, 4, true, true⟩ engAllOk 0 "p" []
    (by decide)).1

/-- C9 fails as stated: a successful `Stop` pushes
`SetPlayback{playing:false, position:0}` to the bridge but leaves the
Coordinator's own `position_ms` at its previous value (500, not 0). -/
theorem C9_counterexample :
    (update engAllOk ⟨true, ⟨["a"], 0⟩, 500, 1000, true, false⟩
        Message.Stop).state.position_ms = 500 ∧
    (update engAllOk ⟨true, ⟨["a"], 0⟩, 500, 1000, true, false⟩
        Message.Stop).state.position_ms ≠ 0 ∧
    (update engAllOk ⟨true, ⟨["a"], 0⟩, 500, 1000, true, false⟩
        Message.Stop).pushes = [MprisCommand.SetPlayback false (some 0)] := by decide

/-- C9 (amended): after a successful `Stop` with the engine present, the
Coordinator clears `is_playing` and pushes
`SetPlayback{playing:false, position:0}` to the bridge, but its own
`position_ms` keeps its previous value — the reported position is reset
only on the bridge, not in the Coordinator's own state. -/
theorem C9_amended_stop (s : AppModel) (e : EngineResp)
    (ha : s.audioPresent = true) (hs : e.stopOk = true) :
    (update e s Message.Stop).state = { s with is_playing := false } ∧
    (update e s Message.Stop).state.position_ms = s.position_ms ∧
    (update e s Message.Stop).calls = [EngineCall.stop] ∧
    (update e s Message.Stop).pushes = [MprisCommand.SetPlayback false (some 0)] := by
  simp [update, handleStop, ha, hs]

/-- Witness for C9 (amended) at a concrete state stopped at 500 ms. -/
theorem C9_amended_stop_witness :
    (update engAllOk ⟨true, Queue.new, 500, 1000, true, false⟩
        Message.Stop).state.position_ms = 500 :=
  (C9_amended_stop ⟨true, Queue.new, 500, 1000, true, false⟩ engAllOk
    (by decide) (by decide)).2.1

/-- C2 fails as stated: from the same starting state (one-track queue,
flag clear, all engine calls succeeding), an external `Play` drained
during a `Tick` leaves the pending-publish flag clear and pushes only the
periodic `SetPlayback{playing:false}` (read before the drain), while the
local `Play` command sets the flag and pushes
`SetPlayback{playing:true}`. -/
theorem C2_counterexample :
    (update engAllOk ⟨true, ⟨["a"], 0⟩, 0, 0, false, false⟩
        (Message.Tick [MprisEvent.Play])).state.mpris_needs_metadata_flush = false ∧
    (update engAllOk ⟨true, ⟨["a"], 0⟩, 0, 0, false, false⟩
        Message.Play).state.mpris_needs_metadata_flush = true ∧
    (update engAllOk ⟨true, ⟨["a"], 0⟩, 0, 0, false, false⟩
        (Message.Tick [MprisEvent.Play])).pushes
      = [MprisCommand.SetPlayback false none] ∧
    (update engAllOk ⟨true, ⟨["a"], 0⟩, 0, 0, false, false⟩
        Message.Play).pushes = [MprisCommand.SetPlayback true none] := by decide

/-- C2 (amended): the drain path does not reuse the local handlers.
What does coincide: a drained `Pause` produces the same state as a
successful local `Pause`, and drained `Next`/`Previous` perform the same
queue transition as the local handlers.  What differs: a drained event
never touches the pending-publish flag (so externally-initiated
`Play`/`Next`/`Previous` do not set it), never pushes any bridge command,
and a drained `Play` sets `is_playing` even when every engine call
fails. -/
theorem C2_amended_drain_divergence (s : AppModel) (e : EngineResp)
    (cs : List EngineCall) :
    (e.pauseOk = true → s.audioPresent = true →
      (drainOne (s, cs) MprisEvent.Pause).1 = (update e s Message.Pause).state) ∧
    ((drainOne (s, cs) MprisEvent.Next).1.queue
      = (update e s Message.Next).state.queue) ∧
    ((drainOne (s, cs) MprisEvent.Previous).1.queue
      = (update e s Message.Prev).state.queue) ∧
    (∀ evt, (drainOne (s, cs) evt).1.mpris_needs_metadata_flush
      = s.mpris_needs_metadata_flush) ∧
    ((drainOne (s, cs) MprisEvent.Play).1.is_playing = true) := by
  refine ⟨?_, ?_, ?_, ?_, ?_⟩
  · intro hp ha
    simp [drainOne, update, handlePause, ha, hp]
  · cases h2 : (s.queue.next).2 with
    | none => simp [drainOne, update, handleNext, h2]
    | some t =>
      simp only [drainOne, update, handleNext, h2]
      split
      · split
        · split <;> rfl
        · rfl
      · rfl
  · cases h2 : (s.queue.prev).2 with
    | none => simp [drainOne, update, handlePrev, h2]
    | some t =>
      simp only [drainOne, update, handlePrev, h2]
      split
      · split
        · split <;> rfl
        · rfl
      · rfl
  · intro evt
    cases evt with
    | Play => simp [drainOne]
    | Pause => simp [drainOne]
    | Next => cases h2 : (s.queue.next).2 <;> simp [drainOne, h2]
    | Previous => cases h2 : (s.queue.prev).2 <;> simp [drainOne, h2]
    | SeekTo t => simp [drainOne]
  · simp [drainOne]

/-- Witness for C2 (amended): a drained `Pause` at a concrete state gives
the same state as the successful local `Pause`. -/
theorem C2_amended_drain_divergence_witness :
    (drainOne (⟨true, Queue.new, 0, 0, true, false⟩, []) MprisEvent.Pause).1
      = (update engAllOk ⟨true, Queue.new, 0, 0, true, false⟩ Message.Pause).state :=
  (C2_amended_drain_divergence ⟨true, Queue.new, 0, 0, true, false⟩ engAllOk []).1
    (by decide) (by decide)

/-- C10: the bridge publishes `Playing` for `SetPlayback{playing:true}`
and `Paused` for `SetPlayback{playing:false}`; the `Stopped` status is
never published for any command, so a successful `Stop` is externally
observable only as `Paused` with position 0 — the same published status as
a successful `Pause`. -/
theorem C10_status_never_stopped :
    (∀ cmd : MprisCommand,
      BridgeEffect.status PlaybackStatus.Stopped ∉ bridgeEffects cmd) ∧
    (∀ s e, s.audioPresent = true → e.stopOk = true →
      (update e s Message.Stop).pushes.flatMap bridgeEffects
        = [BridgeEffect.status PlaybackStatus.Paused, BridgeEffect.seeked 0]) ∧
    (∀ s e, s.audioPresent = true → e.stopOk = true → e.pauseOk = true →
      statusesOf (update e s Message.Stop).pushes
        = statusesOf (update e s Message.Pause).pushes) := by
  refine ⟨?_, ?_, ?_⟩
  · intro cmd h
    cases cmd with
    | SetPlayback playing position =>
      cases playing <;> cases position <;> simp [bridgeEffects] at h
    | SetMetadata t a al l => simp [bridgeEffects] at h
  · intro s e ha hs
    simp [update, handleStop, ha, hs, bridgeEffects]
  · intro s e ha hs hp
    cases hpos : e.pos <;>
      simp [update, handleStop, handlePause, ha, hs, hp, hpos,
        statusesOf, bridgeEffects]

/-- Witness for C10: at a concrete state, the statuses published for a
`Stop` equal those published for a `Pause`. -/
theorem C10_status_never_stopped_witness :
    statusesOf (update engAllOk ⟨true, Queue.new, 5, 9, true, false⟩
        Message.Stop).pushes
      = statusesOf (update engAllOk ⟨true, Queue.new, 5, 9, true, false⟩
        Message.Pause).pushes :=
  C10_status_never_stopped.2.2 ⟨true, Queue.new, 5, 9, true, false⟩ engAllOk
    (by decide) (by decide) (by decide)

lemma metadataFlush_mem {e : EngineResp} {s : AppModel} {ps : List MprisCommand}
    {c : MprisCommand} (h : c ∈ (metadataFlush e s ps).2) :
    c ∈ ps ∨
      (c = MprisCommand.SetMetadata e.md.title e.md.artist e.md.album e.dur ∧
        (e.md.title.isSome || e.md.artist.isSome || e.md.album.isSome ||
          e.dur.isSome) = true) := by
  unfold metadataFlush at h
  split at h
  · dsimp only at h
    split at h
    · rcases List.mem_append.mp h with h | h
      · exact Or.inl h
      · refine Or.inr ⟨List.mem_singleton.mp h, ?_⟩
        assumption
    · exact Or.inl h
  · exact Or.inl h

lemma eosAdvance_no_metadata {e : EngineResp} {s : AppModel}
    {t a al : Option String} {l : Option Nat} :
    MprisCommand.SetMetadata t a al l ∉ (eosAdvance e s).pushes := by
  unfold eosAdvance
  split
  · cases h2 : (s.queue.next).2 with
    | none => simp [h2]
    | some tr =>
      simp only [h2]
      split
      · split <;> simp
      · simp
  · simp

lemma handleTick_no_metadata {e : EngineResp} {evts : List MprisEvent}
    {s : AppModel} {t a al : Option String} {l : Option Nat} :
    MprisCommand.SetMetadata t a al l ∉ (handleTick e evts s).pushes := by
  unfold handleTick
  split
  · intro h
    simp only [List.mem_append, List.mem_singleton] at h
    rcases h with h | h
    · exact eosAdvance_no_metadata h
    · cases h
  · simp

/-- C3 fails as stated: load track `b` via `Next` — the flag is set and no
`SetMetadata` is pushed, which matches the claim so far; the tags and the
duration then arrive on the following `Tick`, yet that Tick pushes only
its periodic `SetPlayback` and leaves the flag pending: the Tick handler
contains no metadata-flush check, so the promised single `SetMetadata`
push never happens. -/
theorem C3_counterexample :
    (update engAllOk ⟨true, ⟨["a", "b"], 0⟩, 0, 0, false, false⟩
        Message.Next).state.mpris_needs_metadata_flush = true ∧
    (update engTags
        (update engAllOk ⟨true, ⟨["a", "b"], 0⟩, 0, 0, false, false⟩
          Message.Next).state
        (Message.Tick [])).state.mpris_needs_metadata_flush = true ∧
    (update engTags
        (update engAllOk ⟨true, ⟨["a", "b"], 0⟩, 0, 0, false, false⟩
          Message.Next).state
        (Message.Tick [])).pushes
      = [MprisCommand.SetPlayback true (some 10)] := by decide

/-- C3 (amended): no `SetMetadata` is ever pushed unless at least one of
title/artist/album or the duration is known at the moment of the push;
but the flush check runs only inside the `Play` and `LoadPath` handlers —
a `Tick` never pushes `SetMetadata` — so a track loaded via
`Next`/`Previous` (or the end-of-stream auto-advance) whose tags arrive on
a later tick receives no `SetMetadata` push until some later local `Play`
or `LoadPath` command runs. -/
theorem C3_amended_metadata_flush (e : EngineResp) (s : AppModel) :
    (∀ m t a al l, MprisCommand.SetMetadata t a al l ∈ (update e s m).pushes →
      (e.md.title.isSome || e.md.artist.isSome || e.md.album.isSome ||
        e.dur.isSome) = true) ∧
    (∀ evts t a al l,
      MprisCommand.SetMetadata t a al l ∉
        (update e s (Message.Tick evts)).pushes) := by
  constructor
  · intro m t a al l h
    cases m with
    | Play =>
      simp only [update, handlePlay] at h
      split at h
      · rcases metadataFlush_mem h with h | ⟨_, hg⟩
        · split at h <;> simp at h
        · exact hg
      · simp at h
    | Pause =>
      simp only [update, handlePause] at h
      split at h
      · split at h <;> simp at h
      · simp at h
    | Stop =>
      simp only [update, handleStop] at h
      split at h
      · split at h <;> simp at h
      · simp at h
    | LoadPath p =>
      simp only [update, handleLoadPath] at h
      split at h
      · rcases metadataFlush_mem h with h | ⟨_, hg⟩
        · split at h
          · split at h <;> simp at h
          · simp at h
        · exact hg
      · simp at h
    | Enqueue p => simp [update, handleEnqueue] at h
    | Next =>
      simp only [update, handleNext] at h
      split at h
      · split at h
        · split at h
          · split at h <;> simp at h
          · simp at h
        · simp at h
      · simp at h
    | Prev =>
      simp only [update, handlePrev] at h
      split at h
      · split at h
        · split at h
          · split at h <;> simp at h
          · simp at h
        · simp at h
      · simp at h
    | Tick evts => exact absurd h handleTick_no_metadata
    | SeekTo f =>
      simp only [update, handleSeekTo] at h
      split at h
      · split at h <;> simp at h
      · simp at h
  · intro evts t a al l
    exact handleTick_no_metadata

/-- Witness for C3 (amended): a concrete `Play` with a title tag and a
duration known does push `SetMetadata`, and the guard evaluates true. -/
theorem C3_amended_metadata_flush_witness :
    (engTags.md.title.isSome || engTags.md.artist.isSome ||
      engTags.md.album.isSome || engTags.dur.isSome) = true :=
  (C3_amended_metadata_flush engTags ⟨true, Queue.new, 0, 0, false, false⟩).1
    Message.Play (some "T") (some "A") none (some 1000) (by decide)

lemma drainOne_dur (acc : AppModel × List EngineCall) (evt : MprisEvent) :
    (drainOne acc evt).1.duration_ms = acc.1.duration_ms := by
  cases evt with
  | Play => rfl
  | Pause => rfl
  | Next => cases h2 : (acc.1.queue.next).2 <;> simp [drainOne, h2]
  | Previous => cases h2 : (acc.1.queue.prev).2 <;> simp [drainOne, h2]
  | SeekTo t => rfl

lemma drainOne_pos (acc : AppModel × List EngineCall) (evt : MprisEvent) :
    (drainOne acc evt).1.position_ms = acc.1.position_ms ∨
      ∃ t, evt = MprisEvent.SeekTo t ∧ (drainOne acc evt).1.position_ms = t := by
  cases evt with
  | Play => exact Or.inl rfl
  | Pause => exact Or.inl rfl
  | Next =>
    left
    cases h2 : (acc.1.queue.next).2 <;> simp [drainOne, h2]
  | Previous =>
    left
    cases h2 : (acc.1.queue.prev).2 <;> simp [drainOne, h2]
  | SeekTo t => exact Or.inr ⟨t, rfl, rfl⟩

lemma drain_fold_bound (d : Nat) :
    ∀ (evts : List MprisEvent) (s : AppModel) (cs : List EngineCall),
      s.duration_ms = d →
      (0 < d → s.position_ms ≤ d) →
      (∀ t, MprisEvent.SeekTo t ∈ evts → 0 < d → t ≤ d) →
      (evts.foldl drainOne (s, cs)).1.duration_ms = d ∧
        (0 < d → (evts.foldl drainOne (s, cs)).1.position_ms ≤ d) := by
  intro evts
  induction evts with
  | nil => intro s cs h1 h2 _; exact ⟨h1, h2⟩
  | cons evt rest ih =>
    intro s cs h1 h2 h3
    rw [List.foldl_cons]
    have hd : (drainOne (s, cs) evt).1.duration_ms = d := by
      rw [drainOne_dur]; exact h1
    have hp : 0 < d → (drainOne (s, cs) evt).1.position_ms ≤ d := by
      intro hdp
      rcases drainOne_pos (s, cs) evt with h | ⟨t, hevt, hpos⟩
      · rw [h]; exact h2 hdp
      · rw [hpos]
        exact h3 t (by rw [hevt]; exact List.mem_cons_self _ _) hdp
    exact ih _ _ hd hp (fun t ht => h3 t (List.mem_cons_of_mem _ ht))

lemma eosAdvance_pos_dur (e : EngineResp) (s : AppModel) :
    (eosAdvance e s).state.duration_ms = s.duration_ms ∧
      (eosAdvance e s).state.position_ms = s.position_ms := by
  unfold eosAdvance
  split
  · cases h2 : (s.queue.next).2 with
    | none => simp [h2]
    | some tr =>
      simp only [h2]
      split
      · split <;> simp
      · simp
  · simp

lemma handleTick_state (e : EngineResp) (evts : List MprisEvent) (s : AppModel)
    (ha : s.audioPresent = true) :
    (handleTick e evts s).state
      = (evts.foldl drainOne
          ((eosAdvance e
            { s with duration_ms := tickDur e s, position_ms := tickPos e s }).state,
            [])).1 := by
  unfold handleTick
  rw [if_pos ha]
  cases hd : e.dur <;> cases hp : e.pos <;> simp [tickDur, tickPos, hd, hp]

lemma tick_preserves_posInv (e : EngineResp) (evts : List MprisEvent)
    (s : AppModel) (hinv : PosInv s)
    (hok : stepOKb s (Message.Tick evts, e) = true) :
    PosInv (update e s (Message.Tick evts)).state := by
  by_cases ha : s.audioPresent = true
  · show PosInv (handleTick e evts s).state
    rw [handleTick_state e evts s ha]
    simp only [stepOKb, Bool.and_eq_true, decide_eq_true_eq,
      List.all_eq_true] at hok
    obtain ⟨href, hall⟩ := hok
    have h3 := eosAdvance_pos_dur e
      { s with duration_ms := tickDur e s, position_ms := tickPos e s }
    have hfold := drain_fold_bound (tickDur e s) evts
      (eosAdvance e
        { s with duration_ms := tickDur e s, position_ms := tickPos e s }).state []
      (by rw [h3.1])
      (by intro hdp; rw [h3.2]; exact href hdp)
      (by
        intro t ht hdp
        exact (of_decide_eq_true (hall _ ht)) hdp)
    intro hd0
    rw [hfold.1] at hd0 ⊢
    exact hfold.2 hd0
  · have hstate : (update e s (Message.Tick evts)).state = s := by
      show (handleTick e evts s).state = s
      unfold handleTick
      rw [if_neg ha]
    rw [hstate]
    exact hinv

lemma handlePlay_pos_dur (e : EngineResp) (s : AppModel) :
    (handlePlay e s).state.position_ms = s.position_ms ∧
      (handlePlay e s).state.duration_ms = s.duration_ms := by
  unfold handlePlay metadataFlush
  dsimp only
  repeat' split
  all_goals simp

lemma handlePause_pos_dur (e : EngineResp) (s : AppModel) :
    (handlePause e s).state.position_ms = s.position_ms ∧
      (handlePause e s).state.duration_ms = s.duration_ms := by
  unfold handlePause
  split
  · split <;> simp
  · simp

lemma rat_floor_le (y : ℚ) : ((y.floor : ℤ) : ℚ) ≤ y := Rat.le_floor.mp le_rfl

lemma rat_floor_intCast (n : ℤ) : ((n : ℚ)).floor = n := by
  have h1 : n ≤ ((n : ℚ)).floor := Rat.le_floor.mpr le_rfl
  have h2 : ((n : ℚ)).floor ≤ n := by
    by_contra h
    push_neg at h
    have h3 : ((n + 1 : ℤ) : ℚ) ≤ (n : ℚ) := Rat.le_floor.mp (by omega)
    have : (n : ℚ) + 1 ≤ (n : ℚ) := by push_cast at h3 ⊢; linarith
    linarith
  omega

lemma rat_floor_le_of_le {y : ℚ} {n : ℤ} (h : y ≤ (n : ℚ)) : y.floor ≤ n := by
  by_contra hc
  push_neg at hc
  have h3 : ((n + 1 : ℤ) : ℚ) ≤ y := Rat.le_floor.mp (by omega)
  have : (n : ℚ) + 1 ≤ (n : ℚ) := by push_cast at h3 ⊢; linarith
  linarith

lemma rne_intCast (n : ℤ) : rne (n : ℚ) = n := by
  unfold rne
  rw [rat_floor_intCast]
  norm_num

lemma rne_le {y : ℚ} {n : ℤ} (h : y ≤ (n : ℚ)) : rne y ≤ n := by
  have hf : y.floor ≤ n := rat_floor_le_of_le h
  have hfl : ((y.floor : ℤ) : ℚ) ≤ y := rat_floor_le y
  unfold rne
  dsimp only
  split
  · exact hf
  · next h1 =>
    have hy : ((y.floor : ℤ) : ℚ) + 1 / 2 ≤ y := by
      have := not_lt.mp h1
      linarith
    have hstep : y.floor + 1 ≤ n := by
      by_contra hc
      push_neg at hc
      have hn : (n : ℚ) ≤ ((y.floor : ℤ) : ℚ) := by
        exact_mod_cast (by omega : n ≤ y.floor)
      linarith
    split
    · exact hstep
    · split
      · omega
      · exact hstep

lemma qexp_le {x : ℚ} (hx : 0 < x) : (2 : ℚ) ^ qexp x ≤ x := by
  unfold qexp
  split
  · next h1 =>
    have hfl1 : 1 ≤ x.floor := Rat.le_floor.mpr (by exact_mod_cast h1)
    have hne : x.floor.toNat ≠ 0 := by omega
    have hlog := Nat.log2_self_le hne
    have hcast : ((x.floor.toNat : ℕ) : ℚ) ≤ x := by
      have h2 : ((x.floor.toNat : ℕ) : ℤ) = x.floor := Int.toNat_of_nonneg (by omega)
      have h3 : ((x.floor.toNat : ℕ) : ℚ) = ((x.floor : ℤ) : ℚ) := by exact_mod_cast h2
      rw [h3]
      exact rat_floor_le x
    calc (2 : ℚ) ^ ((Nat.log2 x.floor.toNat : ℕ) : ℤ)
        = ((2 ^ Nat.log2 x.floor.toNat : ℕ) : ℚ) := by
          rw [zpow_natCast]; push_cast; ring
      _ ≤ ((x.floor.toNat : ℕ) : ℚ) := by exact_mod_cast hlog
      _ ≤ x := hcast
  · next h1 =>
    push_neg at h1
    have hnum : 0 < x.num := Rat.num_pos.mpr hx
    set nn := x.num.toNat with hnn
    have hnn0 : 0 < nn := by omega
    have hden : 0 < x.den := x.den_pos
    set m := (x.den + nn - 1) / nn with hm
    set k := Nat.clog 2 m with hk
    have hmk : m ≤ 2 ^ k := Nat.le_pow_clog (by norm_num) m
    have hdm : x.den ≤ nn * m := by
      have hd1 := Nat.div_add_mod (x.den + nn - 1) nn
      have hd2 := Nat.mod_lt (x.den + nn - 1) hnn0
      rw [← hm] at hd1
      omega
    have hdk : x.den ≤ nn * 2 ^ k := le_trans hdm (Nat.mul_le_mul_left nn hmk)
    have h2k : (0 : ℚ) < 2 ^ k := by positivity
    have hx2 : (1 : ℚ) ≤ x * 2 ^ k := by
      have hxe : ((x.num : ℤ) : ℚ) / ((x.den : ℕ) : ℚ) = x := Rat.num_div_den x
      have hdq : (0 : ℚ) < ((x.den : ℕ) : ℚ) := by exact_mod_cast hden
      rw [← hxe, div_mul_eq_mul_div, le_div_iff₀ hdq, one_mul]
      calc ((x.den : ℕ) : ℚ) ≤ ((nn * 2 ^ k : ℕ) : ℚ) := by exact_mod_cast hdk
        _ = ((x.num : ℤ) : ℚ) * 2 ^ k := by
            have h2 : ((nn : ℕ) : ℤ) = x.num := Int.toNat_of_nonneg (by omega)
            have h3 : ((nn : ℕ) : ℚ) = ((x.num : ℤ) : ℚ) := by exact_mod_cast h2
            push_cast
            rw [h3]
    rw [zpow_neg, zpow_natCast]
    rw [inv_eq_one_div, div_le_iff₀ h2k]
    linarith

lemma clamp01_nonneg (x : ℚ) : 0 ≤ clamp01 x := le_min zero_le_one (le_max_left 0 x)

lemma clamp01_le_one (x : ℚ) : clamp01 x ≤ 1 := min_le_left _ _

lemma qexp_le_23 {x : ℚ} {d : ℕ} (hx : 0 < x) (hxd : x ≤ (d : ℚ)) (hd : d < 2 ^ 24) :
    qexp x ≤ 23 := by
  have h1 : (2 : ℚ) ^ qexp x ≤ (d : ℚ) := le_trans (qexp_le hx) hxd
  have h2 : ((d : ℕ) : ℚ) < ((2 ^ 24 : ℕ) : ℚ) := by exact_mod_cast hd
  have h3 : ((2 ^ 24 : ℕ) : ℚ) = (2 : ℚ) ^ (24 : ℤ) := by
    rw [show ((24 : ℤ)) = ((24 : ℕ) : ℤ) from rfl, zpow_natCast]; push_cast; ring
  have h4 : (2 : ℚ) ^ qexp x < (2 : ℚ) ^ (24 : ℤ) := by
    rw [← h3]; exact lt_of_le_of_lt h1 h2
  by_contra hc
  push_neg at hc
  have h5 : (2 : ℚ) ^ (24 : ℤ) ≤ (2 : ℚ) ^ qexp x :=
    zpow_le_zpow_right₀ one_le_two (by omega)
  linarith

lemma nat_mul_zpow_cancel (d c : ℕ) :
    ((d * 2 ^ c : ℕ) : ℚ) * (2 : ℚ) ^ (-(c : ℤ)) = (d : ℚ) := by
  rw [zpow_neg, zpow_natCast]
  push_cast
  rw [mul_assoc, mul_inv_cancel₀ (by positivity), mul_one]

lemma div_zpow_neg_eq (x : ℚ) (c : ℕ) :
    x / (2 : ℚ) ^ (-(c : ℤ)) = x * 2 ^ c := by
  rw [zpow_neg, zpow_natCast, div_eq_mul_inv, inv_inv]

lemma roundF32Pos_le_of_le {x : ℚ} {d : ℕ} (hd : d < 2 ^ 24) (hx : x ≤ (d : ℚ)) :
    roundF32Pos x ≤ (d : ℚ) := by
  unfold roundF32Pos
  split
  · positivity
  · next hpos =>
    push_neg at hpos
    obtain ⟨c, hc⟩ : ∃ c : ℕ, f32ulp x = (2 : ℚ) ^ (-(c : ℤ)) := by
      unfold f32ulp
      split
      · exact ⟨149, rfl⟩
      · have h23 := qexp_le_23 hpos hx hd
        refine ⟨(23 - qexp x).toNat, ?_⟩
        congr 1
        omega
    rw [hc]
    have hm : x / (2 : ℚ) ^ (-(c : ℤ)) ≤ ((d * 2 ^ c : ℕ) : ℤ) := by
      rw [div_zpow_neg_eq]
      push_cast
      exact mul_le_mul_of_nonneg_right hx (by positivity)
    have hr := rne_le (n := ((d * 2 ^ c : ℕ) : ℤ)) (by exact_mod_cast hm)
    have hru : ((rne (x / (2 : ℚ) ^ (-(c : ℤ))) : ℤ) : ℚ) ≤ ((d * 2 ^ c : ℕ) : ℚ) := by
      exact_mod_cast hr
    calc ((rne (x / (2 : ℚ) ^ (-(c : ℤ))) : ℤ) : ℚ) * (2 : ℚ) ^ (-(c : ℤ))
        ≤ ((d * 2 ^ c : ℕ) : ℚ) * (2 : ℚ) ^ (-(c : ℤ)) :=
          mul_le_mul_of_nonneg_right hru (by positivity)
      _ = (d : ℚ) := nat_mul_zpow_cancel d c

lemma roundF32_natCast {d : ℕ} (hd : d < 2 ^ 24) : roundF32 (d : ℚ) = (d : ℚ) := by
  rcases Nat.eq_zero_or_pos d with h0 | hpos
  · subst h0
    simp [roundF32, roundF32Pos]
  · unfold roundF32
    rw [if_neg (not_lt.mpr (by positivity))]
    unfold roundF32Pos
    rw [if_neg (by push_cast [not_le]; exact_mod_cast hpos)]
    have hd1 : (1 : ℚ) ≤ (d : ℚ) := by exact_mod_cast hpos
    have hulp : f32ulp (d : ℚ) = (2 : ℚ) ^ ((Nat.log2 d : ℤ) - 23) := by
      unfold f32ulp
      rw [if_neg, qexp]
      · rw [if_pos hd1]
        have hfl : ((d : ℚ)).floor = (d : ℤ) := by
          have h4 : ((d : ℕ) : ℚ) = ((d : ℤ) : ℚ) := by push_cast; ring
          rw [h4, rat_floor_intCast]
        rw [hfl]
        norm_num
      · push_neg
        calc (2 : ℚ) ^ (-126 : ℤ) ≤ 1 := by
              rw [zpow_neg]
              rw [show ((126 : ℤ)) = ((126 : ℕ) : ℤ) from rfl, zpow_natCast]
              rw [inv_le_one_iff₀]
              right
              norm_num
          _ ≤ (d : ℚ) := hd1
    set L := Nat.log2 d with hL
    have hL23 : L ≤ 23 := by
      have := (Nat.log2_lt (by omega)).mpr hd
      omega
    have hexp : (L : ℤ) - 23 = -(((23 - L : ℕ) : ℤ)) := by omega
    set c := 23 - L with hcdef
    rw [hulp, hexp]
    have hdiv : (d : ℚ) / (2 : ℚ) ^ (-(c : ℤ)) = ((d * 2 ^ c : ℕ) : ℤ) := by
      rw [div_zpow_neg_eq]
      push_cast
      ring
    rw [hdiv, rne_intCast]
    exact nat_mul_zpow_cancel d c

lemma seek_target_f32_le (d : ℕ) (f : ℚ) (hd : d < 2 ^ 24) :
    min (2 ^ 64 - 1)
      ((roundF32 (roundF32 (d : ℚ) * clamp01 (roundF32 f))).floor.toNat) ≤ d := by
  refine le_trans (min_le_right _ _) ?_
  rw [roundF32_natCast hd]
  set fc := clamp01 (roundF32 f) with hfc
  have hfc0 : 0 ≤ fc := clamp01_nonneg _
  have hfc1 : fc ≤ 1 := clamp01_le_one _
  have hx0 : (0 : ℚ) ≤ (d : ℚ) * fc := mul_nonneg (by positivity) hfc0
  have hxd : (d : ℚ) * fc ≤ (d : ℚ) := mul_le_of_le_one_right (by positivity) hfc1
  have hout : roundF32 ((d : ℚ) * fc) ≤ (d : ℚ) := by
    unfold roundF32
    rw [if_neg (not_lt.mpr hx0)]
    exact roundF32Pos_le_of_le hd hxd
  have hfloor : (roundF32 ((d : ℚ) * fc)).floor ≤ (d : ℤ) :=
    rat_floor_le_of_le (by exact_mod_cast hout)
  exact Int.toNat_le.mpr hfloor

lemma handleSeekTo_posInv (f : ℚ) (s : AppModel) (hinv : PosInv s)
    (hd24 : s.duration_ms < 2 ^ 24) : PosInv (handleSeekTo f s).state := by
  unfold handleSeekTo
  split
  · split
    · intro hd
      simpa using seek_target_f32_le s.duration_ms f hd24
    · exact hinv
  · exact hinv

lemma step_preserves_posInv (s : AppModel) (me : Message × EngineResp)
    (hinv : PosInv s) (hok : stepOKb s me = true) :
    PosInv (update me.2 s me.1).state := by
  obtain ⟨m, e⟩ := me
  cases m with
  | Play =>
    have h := handlePlay_pos_dur e s
    intro hd
    rw [show (update e s Message.Play).state = (handlePlay e s).state from rfl,
      h.2] at hd
    rw [show (update e s Message.Play).state = (handlePlay e s).state from rfl,
      h.1, h.2]
    exact hinv hd
  | Pause =>
    have h := handlePause_pos_dur e s
    intro hd
    rw [show (update e s Message.Pause).state = (handlePause e s).state from rfl,
      h.2] at hd
    rw [show (update e s Message.Pause).state = (handlePause e s).state from rfl,
      h.1, h.2]
    exact hinv hd
  | SeekTo f =>
    simp only [stepOKb, decide_eq_true_eq] at hok
    exact handleSeekTo_posInv f s hinv hok
  | Tick evts => exact tick_preserves_posInv e evts s hinv hok
  | Stop => simp [stepOKb] at hok
  | LoadPath p => simp [stepOKb] at hok
  | Enqueue p => simp [stepOKb] at hok
  | Next => simp [stepOKb] at hok
  | Prev => simp [stepOKb] at hok

/-- C7 fails as stated: starting from the freshly initialized Coordinator
with one queued track, a first `Tick` learns duration 1000 ms and position
10 ms from the engine; a second `Tick` drains an externally-initiated
`SeekTo 5000` — the drain (`src/app.rs:558-561`) stores the raw target
without clamping against the duration, leaving position 5000 > duration
1000. -/
theorem C7_counterexample :
    0 < (run ⟨true, ⟨["a"], 0⟩, 0, 0, false, false⟩
        [(Message.Tick [], engTags),
          (Message.Tick [MprisEvent.SeekTo 5000], engAllOk)]).duration_ms ∧
    ¬ (run ⟨true, ⟨["a"], 0⟩, 0, 0, false, false⟩
        [(Message.Tick [], engTags),
          (Message.Tick [MprisEvent.SeekTo 5000], engAllOk)]).position_ms ≤
      (run ⟨true, ⟨["a"], 0⟩, 0, 0, false, false⟩
        [(Message.Tick [], engTags),
          (Message.Tick [MprisEvent.SeekTo 5000], engAllOk)]).duration_ms := by
  decide

/-- C7 (amended): after any sequence of `Play`, `Pause`, `SeekTo` and
`Tick` commands, `position ≤ duration` holds whenever the duration is
known (positive), provided that each local `SeekTo` is issued while the
known duration is below `2 ^ 24` ms, and on each `Tick` the
engine-reported refresh keeps the refreshed position within the refreshed
duration and every externally-initiated `SeekTo` target drained during
that Tick is within the refreshed duration.  (The unconstrained statement
is false three ways: external seek targets are stored unclamped, the
Coordinator trusts whatever position and duration the engine reports, and
for durations of `2 ^ 24` ms or more the `u64 → f32` conversion in the
local `SeekTo` handler can round the duration upward so that the computed
target exceeds it.) -/
theorem C7_amended_position_le_duration (s : AppModel)
    (inputs : List (Message × EngineResp)) (hinv : PosInv s)
    (hok : runOKb s inputs = true) : PosInv (run s inputs) := by
  induction inputs generalizing s with
  | nil => exact hinv
  | cons me rest ih =>
    simp only [runOKb, Bool.and_eq_true] at hok
    exact ih _ (step_preserves_posInv s me hinv hok.1) hok.2

/-- Witness for C7 (amended) on a concrete four-step run: a Tick that
learns duration 1000, a Tick that drains an external `SeekTo 500`,
a `Pause` and a `Play`. -/
theorem C7_amended_position_le_duration_witness :
    PosInv (run ⟨true, ⟨["a"], 0⟩, 0, 0, false, false⟩
      [(Message.Tick [], engTags),
        (Message.Tick [MprisEvent.SeekTo 500], engAllOk),
        (Message.Pause, engAllOk), (Message.Play, engAllOk)]) :=
  C7_amended_position_le_duration _ _ (by decide) (by decide)
